import Mathlib

/-!
Verification of the segment-detection and interval-algebra engine of the
quickcut video editor (`src/processor/audio_analyzer.py`,
`src/processor/asr_filler_detector.py`, `src/processor/video_processor.py`).

Python floats are modelled as exact rationals (`ℚ`); time intervals are
pairs `(start, end)`.  Python's stable `sorted(key=lambda x: x[0])` is
modelled by `List.insertionSort` on the start component, which is likewise
stable.  The audio-feature front end (RMS/FFT) is out of scope: the
functions below receive the per-frame dB and speech-band-ratio sequences
the Python code derives from the raw buffer, exactly as the claims do.
-/

namespace QuickCut

/-- A time interval `(start, end)` in seconds, as produced by the Python code
(tuples of floats). -/
abbrev Interval := ℚ × ℚ

instance : BEq Interval := instBEqOfDecidableEq

instance : LawfulBEq Interval where
  eq_of_beq h := of_decide_eq_true h
  rfl := decide_eq_true rfl

/-- Ordering by start time, the key used by `sorted(..., key=lambda x: x[0])`. -/
def leStart (a b : Interval) : Prop := a.1 ≤ b.1

instance : DecidableRel leStart := fun a b => inferInstanceAs (Decidable (a.1 ≤ b.1))

instance : IsTotal Interval leStart := ⟨fun a b => le_total a.1 b.1⟩

instance : IsTrans Interval leStart := ⟨fun _ _ _ h h' => le_trans h h'⟩

/-- `sorted(ranges, key=lambda x: x[0])` — stable sort by start time. -/
def sortStart (l : List Interval) : List Interval := l.insertionSort leStart

/-- The set of time points covered by a list of half-open intervals. -/
def covers (l : List Interval) (x : ℚ) : Prop := ∃ p ∈ l, p.1 ≤ x ∧ x < p.2

instance (l : List Interval) (x : ℚ) : Decidable (covers l x) :=
  inferInstanceAs (Decidable (∃ p ∈ l, p.1 ≤ x ∧ x < p.2))

/-! ### Merge (`ASRFillerDetector._merge_adjacent`, `VideoProcessor._merge_intervals`)

The two Python methods have character-identical bodies; both are embedded
by the same loop. -/

/-- The `for s, e in ranges[1:]` fold of `_merge_adjacent`, carrying the
current accumulated interval `(cs, ce)`. -/
def mergeLoop (g : ℚ) (cs ce : ℚ) : List Interval → List Interval
  | [] => [(cs, ce)]
  | (s, e) :: rest =>
    if s ≤ ce + g then mergeLoop g cs (max ce e) rest
    else (cs, ce) :: mergeLoop g s e rest

/-- Merge of an already start-sorted list: peel off `ranges[0]` and fold. -/
def mergeSorted (g : ℚ) : List Interval → List Interval
  | [] => []
  | (s, e) :: rest => mergeLoop g s e rest

/-- `ASRFillerDetector._merge_adjacent(ranges, max_gap)`:
sort by start, then fold adjacent/overlapping ranges. -/
def merge_adjacent (ranges : List Interval) (max_gap : ℚ) : List Interval :=
  mergeSorted max_gap (sortStart ranges)

/-- `VideoProcessor._merge_intervals(intervals, min_gap)` — the identical
algorithm, duplicated in the Python source. -/
def merge_intervals (intervals : List Interval) (min_gap : ℚ) : List Interval :=
  mergeSorted min_gap (sortStart intervals)

/-! ### Subtract (`VideoProcessor._subtract_intervals`) -/

/-- The inner `while j < len(cuts) and cuts[j][0] < ce` loop of
`_subtract_intervals`, for one base interval with right end `ce`, cursor
`cur`, over the remaining cut list.  Returns the output intervals this base
interval contributes (including the trailing `if cur < ce` remainder). -/
def subLoop (ce : ℚ) : ℚ → List Interval → List Interval
  | cur, [] => if cur < ce then [(cur, ce)] else []
  | cur, (cs', ce') :: rest =>
    if cs' < ce then
      let pre := if cur < cs' then [(cur, min cs' ce)] else []
      if ce ≤ max cur ce' then pre
      else pre ++ subLoop ce (max cur ce') rest
    else if cur < ce then [(cur, ce)] else []

/-- The outer `for s, e in base` loop of `_subtract_intervals`.  The cursor
`i` over `cuts` is modelled by passing down the suffix of `cuts` remaining
after the `while cuts[i][1] <= cs : i += 1` advance. -/
def subBase : List Interval → List Interval → List Interval
  | [], _ => []
  | (s, e) :: rest, cuts =>
    let cuts' := cuts.dropWhile (fun c => decide (c.2 ≤ s))
    subLoop e s cuts' ++ subBase rest cuts'

/-- `VideoProcessor._subtract_intervals(base, cuts)`. -/
def subtract_intervals (base cuts : List Interval) : List Interval :=
  if base = [] then []
  else if cuts = [] then base
  else subBase (sortStart base) (sortStart cuts)

/-! ### Adaptive threshold (`AudioAnalyzer._adaptive_threshold`) -/

/-- `sorted(l)` on plain rationals (for the percentile computation). -/
def sortQ (l : List ℚ) : List ℚ := l.insertionSort (· ≤ ·)

/-- `float(np.percentile(db_values, 20))` with numpy's default linear
interpolation: position `(n-1)·20/100` into the ascending sort, value
interpolated between the two neighbouring order statistics. -/
def percentile20 (l : List ℚ) : ℚ :=
  let s := sortQ l
  let n := s.length
  let pos : ℚ := ((n : ℚ) - 1) / 5
  let k : ℕ := (n - 1) / 5
  let frac : ℚ := pos - (k : ℚ)
  let lo := s.getD k 0
  let hi := s.getD (k + 1) lo
  lo + frac * (hi - lo)

/-- `AudioAnalyzer._adaptive_threshold(db_values)` with the configured static
threshold `silence_threshold`. -/
def adaptive_threshold (silence_threshold : ℚ) (db_values : List ℚ) : ℚ :=
  if db_values = [] then silence_threshold
  else
    let noise_floor := percentile20 db_values
    let margin_db : ℚ := 6
    let dynamic_threshold := noise_floor + margin_db
    let effective_threshold := max silence_threshold dynamic_threshold
    min effective_threshold (-20)

/-! ### Segment classifier (`AudioAnalyzer.detect_silence_segments`,
`AudioAnalyzer.find_speech_segments`, `AudioAnalyzer._fallback_speech_segments`)

The per-frame dB and band-ratio sequences are taken as inputs (they are
computed from the raw buffer by floating-point RMS/FFT code outside the
scope of the interval logic).  The frame duration is the fixed
`self.frame_duration = 0.1`.  `band_ratios[i] if i < len(band_ratios) else 0.0`
is modelled by walking the ratio list in lockstep with `headD 0`. -/

/-- The `for i, db_level in enumerate(db_values)` loop of
`detect_silence_segments`, with frame index `i` and the open-segment state
`current_segment_start`.  On exhaustion the still-open segment is closed at
`len(db_values) * frame_duration`. -/
def detect_go (thr min_sil fd : ℚ) : List ℚ → List ℚ → ℕ → Option ℚ → List Interval
  | [], _, n, cur =>
    match cur with
    | none => []
    | some c => if (n : ℚ) * fd - c ≥ min_sil then [(c, (n : ℚ) * fd)] else []
  | db :: dbs, ratios, i, cur =>
    let ratio := ratios.headD 0
    if db < thr ∨ (db < thr + 3 ∧ ratio < 7/20) then
      match cur with
      | none => detect_go thr min_sil fd dbs (ratios.drop 1) (i + 1) (some ((i : ℚ) * fd))
      | some c => detect_go thr min_sil fd dbs (ratios.drop 1) (i + 1) (some c)
    else
      match cur with
      | none => detect_go thr min_sil fd dbs (ratios.drop 1) (i + 1) none
      | some c =>
        if ((i : ℚ) + 1) * fd - c ≥ min_sil then
          (c, ((i : ℚ) + 1) * fd) :: detect_go thr min_sil fd dbs (ratios.drop 1) (i + 1) none
        else detect_go thr min_sil fd dbs (ratios.drop 1) (i + 1) none

/-- `AudioAnalyzer.detect_silence_segments`, as a function of the per-frame
features: compute the effective threshold, then run the frame scan. -/
def detect_silence_segments (silence_threshold min_silence_duration : ℚ)
    (db_values band_ratios : List ℚ) : List Interval :=
  let thr := adaptive_threshold silence_threshold db_values
  detect_go thr min_silence_duration (1/10) db_values band_ratios 0 none

/-- The `for silence_start, silence_end in silence_segments` loop of
`_fallback_speech_segments`, with `current_start` as the cursor. -/
def fallback_go : List Interval → ℚ → ℚ → List Interval
  | [], current, total => if current < total then [(current, total)] else []
  | (ss, se) :: rest, current, total =>
    if current < ss then (current, ss) :: fallback_go rest se total
    else fallback_go rest se total

/-- `AudioAnalyzer._fallback_speech_segments`: the buffer minus the detected
silence, where `total_duration = len(audio_segment) / 1000`. -/
def fallback_speech_segments (silence_threshold min_silence_duration : ℚ)
    (db_values band_ratios : List ℚ) (total_duration : ℚ) : List Interval :=
  let sil := detect_silence_segments silence_threshold min_silence_duration db_values band_ratios
  if sil = [] then [(0, total_duration)]
  else fallback_go sil 0 total_duration

/-- The frame loop of `find_speech_segments`:
`is_speech = (db_level >= threshold - 2.0) and (ratio >= 0.35)`. -/
def speech_go (thr fd : ℚ) : List ℚ → List ℚ → ℕ → Option ℚ → List Interval
  | [], _, n, cur =>
    match cur with
    | none => []
    | some c => [(c, (n : ℚ) * fd)]
  | db :: dbs, ratios, i, cur =>
    let ratio := ratios.headD 0
    if db ≥ thr - 2 ∧ ratio ≥ 7/20 then
      match cur with
      | none => speech_go thr fd dbs (ratios.drop 1) (i + 1) (some ((i : ℚ) * fd))
      | some c => speech_go thr fd dbs (ratios.drop 1) (i + 1) (some c)
    else
      match cur with
      | none => speech_go thr fd dbs (ratios.drop 1) (i + 1) none
      | some c => (c, ((i : ℚ) + 1) * fd) :: speech_go thr fd dbs (ratios.drop 1) (i + 1) none

/-- `AudioAnalyzer.find_speech_segments`: energy/band-ratio speech scan with
the non-silence fallback when nothing is detected. -/
def find_speech_segments (silence_threshold min_silence_duration : ℚ)
    (db_values band_ratios : List ℚ) (total_duration : ℚ) : List Interval :=
  let thr := adaptive_threshold silence_threshold db_values
  let segs := speech_go thr (1/10) db_values band_ratios 0 none
  if segs = [] then
    fallback_speech_segments silence_threshold min_silence_duration db_values band_ratios
      total_duration
  else segs

/-! ### ASR filler detector (`ASRFillerDetector`)

The Vosk recognizer is abstracted as the list of word events it emits
(text plus start/end timestamps); `_collect_fillers_from_result` is the
per-word filter applied to that stream, and `detect_fillers` merges the
collected ranges with `merge_gap_seconds = 0.25`. -/

/-- A word-level timestamp event from the external recognizer.  `stop` is the
Python field `end` (a Lean keyword). -/
structure WordEvent where
  text : String
  start : ℚ
  stop : ℚ
deriving DecidableEq

/-- Python's `str.lower()`: per-character lowercasing (the recognizer's
tokens are ASCII, where this agrees with Unicode full lowercasing). -/
def str_lower (s : String) : String := ⟨s.data.map Char.toLower⟩

/-- `self.filler_set` — the fixed filler lexicon. -/
def filler_set : List String :=
  ["um", "uh", "umm", "uhh", "erm", "er", "ah", "eh", "mm", "hmm"]

/-- `ASRFillerDetector._collect_fillers_from_result`, flattened over the word
stream: keep `(start, end)` when the lowercased word is in the lexicon and
`end > start`. -/
def collect_fillers : List WordEvent → List Interval
  | [] => []
  | w :: ws =>
    if str_lower w.text ∈ filler_set ∧ w.stop > w.start then
      (w.start, w.stop) :: collect_fillers ws
    else collect_fillers ws

/-- `ASRFillerDetector.detect_fillers`: collect filler word ranges, then merge
adjacent ones with `merge_gap_seconds = 0.25`. -/
def detect_fillers (words : List WordEvent) : List Interval :=
  merge_adjacent (collect_fillers words) (1/4)

/-! ### Segment pipeline (`VideoProcessor.process_video`, lines 121–132)

The speech-range decision after ASR ran: subtract the filler ranges when
any were found, then fail hard when no speech range remains. -/

/-- The authoritative speech decision of `process_video`: given the oracle's
speech and filler range lists, subtract fillers if any, and raise
`RuntimeError("No speech detected by ASR; nothing to cut")` when the result
is empty. -/
def pipeline_speech_decision (oracle_speech oracle_fillers : List Interval) :
    Except String (List Interval) :=
  let speech :=
    if oracle_fillers = [] then oracle_speech
    else subtract_intervals oracle_speech oracle_fillers
  if speech = [] then Except.error "No speech detected by ASR; nothing to cut"
  else Except.ok speech

/-! ## Merge lemmas -/

/-- Unfolding `mergeLoop` when the next range is within the gap tolerance. -/
theorem mergeLoop_cons_le {g cs ce s e : ℚ} {l : List Interval} (h : s ≤ ce + g) :
    mergeLoop g cs ce ((s, e) :: l) = mergeLoop g cs (max ce e) l := by
  simp [mergeLoop, h]

/-- Unfolding `mergeLoop` when the next range is beyond the gap tolerance. -/
theorem mergeLoop_cons_gt {g cs ce s e : ℚ} {l : List Interval} (h : ¬ s ≤ ce + g) :
    mergeLoop g cs ce ((s, e) :: l) = (cs, ce) :: mergeLoop g s e l := by
  simp [mergeLoop, h]

/-- The merged output starts with the pending accumulated start `cs`. -/
theorem mergeLoop_headStart (g : ℚ) (l : List Interval) :
    ∀ cs ce, ∃ z t, mergeLoop g cs ce l = (cs, z) :: t := by
  induction l with
  | nil => exact fun cs ce => ⟨ce, [], rfl⟩
  | cons a rest ih =>
    intro cs ce
    obtain ⟨a1, a2⟩ := a
    by_cases h : a1 ≤ ce + g
    · rw [mergeLoop_cons_le h]
      exact ih cs (max ce a2)
    · exact ⟨ce, mergeLoop g a1 a2 rest, mergeLoop_cons_gt h⟩

/-- Consecutive merged output intervals are separated by strictly more than
the gap tolerance: a new interval is only started when the next range's
start exceeds the accumulated end plus the gap. -/
theorem mergeLoop_chain (g : ℚ) (l : List Interval) :
    ∀ cs ce, (mergeLoop g cs ce l).Chain' (fun a b => a.2 + g < b.1) := by
  induction l with
  | nil => intro cs ce; simp [mergeLoop]
  | cons a rest ih =>
    intro cs ce
    obtain ⟨a1, a2⟩ := a
    by_cases h : a1 ≤ ce + g
    · rw [mergeLoop_cons_le h]
      exact ih cs (max ce a2)
    · rw [mergeLoop_cons_gt h]
      obtain ⟨z, t, ht⟩ := mergeLoop_headStart g rest a1 a2
      rw [ht]
      refine List.chain'_cons.mpr ⟨not_le.mp h, ?_⟩
      rw [← ht]
      exact ih a1 a2

/-- Each merged output interval is valid (end at or after start) when the
input ranges and the accumulated interval are. -/
theorem mergeLoop_valid (g : ℚ) (l : List Interval) :
    ∀ cs ce, (∀ p ∈ l, p.1 ≤ p.2) → cs ≤ ce →
      ∀ p ∈ mergeLoop g cs ce l, p.1 ≤ p.2 := by
  induction l with
  | nil =>
    intro cs ce _ h p hp
    simp only [mergeLoop, List.mem_singleton] at hp
    simpa [hp] using h
  | cons a rest ih =>
    intro cs ce hl h p hp
    obtain ⟨a1, a2⟩ := a
    have hrest : ∀ p ∈ rest, p.1 ≤ p.2 := fun q hq => hl q (List.mem_cons_of_mem _ hq)
    by_cases hc : a1 ≤ ce + g
    · rw [mergeLoop_cons_le hc] at hp
      exact ih cs (max ce a2) hrest (h.trans (le_max_left _ _)) p hp
    · rw [mergeLoop_cons_gt hc] at hp
      rcases List.mem_cons.mp hp with rfl | hp
      · exact h
      · exact ih a1 a2 hrest (hl (a1, a2) (List.mem_cons_self _ _)) p hp

/-- On a start-sorted, valid input `mergeLoop` keeps every output start at or
after the accumulated start and produces pairwise gap-separated output. -/
theorem mergeLoop_inv (g : ℚ) (hg : 0 ≤ g) (l : List Interval) :
    ∀ cs ce, l.Sorted leStart → (∀ p ∈ l, p.1 ≤ p.2) → cs ≤ ce →
      (∀ p ∈ l, cs ≤ p.1) →
      (∀ p ∈ mergeLoop g cs ce l, cs ≤ p.1) ∧
        (mergeLoop g cs ce l).Pairwise (fun a b => a.2 + g < b.1) := by
  induction l with
  | nil =>
    intro cs ce _ _ _ _
    constructor
    · intro p hp
      simp only [mergeLoop, List.mem_singleton] at hp
      simp [hp]
    · simp [mergeLoop]
  | cons a rest ih =>
    intro cs ce hs hv h hlow
    obtain ⟨a1, a2⟩ := a
    have hs' := List.sorted_cons.mp hs
    have hvrest : ∀ p ∈ rest, p.1 ≤ p.2 := fun q hq => hv q (List.mem_cons_of_mem _ hq)
    by_cases hc : a1 ≤ ce + g
    · rw [mergeLoop_cons_le hc]
      exact ih cs (max ce a2) hs'.2 hvrest (h.trans (le_max_left _ _))
        (fun q hq => hlow q (List.mem_cons_of_mem _ hq))
    · rw [mergeLoop_cons_gt hc]
      have ha1 : a1 ≤ a2 := hv (a1, a2) (List.mem_cons_self _ _)
      have hT := ih a1 a2 hs'.2 hvrest ha1 (fun q hq => hs'.1 q hq)
      have hafter : ∀ q ∈ mergeLoop g a1 a2 rest, ce + g < q.1 := by
        intro q hq
        exact lt_of_lt_of_le (not_le.mp hc) (hT.1 q hq)
      constructor
      · intro p hp
        rcases List.mem_cons.mp hp with rfl | hp
        · exact le_refl _
        · have : ce + g < p.1 := hafter p hp
          have hce : cs ≤ ce + g := le_trans h (le_add_of_nonneg_right hg)
          exact le_of_lt (lt_of_le_of_lt hce this)
      · exact List.pairwise_cons.mpr ⟨hafter, hT.2⟩

/-- Replaying `mergeLoop` on an already gap-separated list changes nothing. -/
theorem mergeLoop_of_chain (g : ℚ) (l : List Interval) :
    ∀ cs ce, ((cs, ce) :: l).Chain' (fun a b => a.2 + g < b.1) →
      mergeLoop g cs ce l = (cs, ce) :: l := by
  induction l with
  | nil => intro cs ce _; rfl
  | cons b rest ih =>
    intro cs ce h
    obtain ⟨b1, b2⟩ := b
    have h' := List.chain'_cons.mp h
    rw [mergeLoop_cons_gt (not_le.mpr h'.1), ih b1 b2 h'.2]

/-- Sorting is a permutation of the input. -/
theorem sortStart_perm (l : List Interval) : (sortStart l).Perm l :=
  List.perm_insertionSort leStart l

/-- The sort used by the merge and subtract primitives is start-sorted. -/
theorem sortStart_sorted (l : List Interval) : (sortStart l).Sorted leStart :=
  List.sorted_insertionSort leStart l

/-- Moving an element with minimal start to the front of a start-sorted,
valid list does not change the merge fold. -/
theorem mergeLoop_bubble (g : ℚ) (hg : 0 ≤ g) (l : List Interval) :
    ∀ a ∈ l, l.Sorted leStart → (∀ p ∈ l, p.1 ≤ p.2) → (∀ p ∈ l, a.1 ≤ p.1) →
      ∀ cs ce, mergeLoop g cs ce l = mergeLoop g cs ce (a :: l.erase a) := by
  induction l with
  | nil => intro a ha; exact absurd ha (List.not_mem_nil a)
  | cons b t ih =>
    intro a ha hs hv hm cs ce
    by_cases hab : a = b
    · subst hab
      rw [List.erase_cons_head]
    · have hat : a ∈ t := by
        rcases List.mem_cons.mp ha with h | h
        · exact absurd h hab
        · exact h
      have hs' := List.sorted_cons.mp hs
      have heq : a.1 = b.1 :=
        le_antisymm (hm b (List.mem_cons_self _ _)) (hs'.1 a hat)
      have hvt : ∀ p ∈ t, p.1 ≤ p.2 := fun q hq => hv q (List.mem_cons_of_mem _ hq)
      have hmt : ∀ p ∈ t, a.1 ≤ p.1 := fun q hq => hm q (List.mem_cons_of_mem _ hq)
      have herase : (b :: t).erase a = b :: t.erase a :=
        List.erase_cons_tail (by simp [Ne.symm hab])
      obtain ⟨a1, a2⟩ := a
      obtain ⟨b1, b2⟩ := b
      simp only at heq
      have hva : a1 ≤ a2 := hv (a1, a2) ha
      have hvb : b1 ≤ b2 := hv (b1, b2) (List.mem_cons_self _ _)
      rw [herase]
      by_cases hb : b1 ≤ ce + g
      · have hbmax : b1 ≤ max ce a2 + g := hb.trans (add_le_add_right (le_max_left _ _) _)
        have hamax : a1 ≤ max ce b2 + g := by
          rw [heq]
          exact hb.trans (add_le_add_right (le_max_left _ _) _)
        have ha' : a1 ≤ ce + g := heq ▸ hb
        rw [mergeLoop_cons_le hb, ih (a1, a2) hat hs'.2 hvt hmt cs (max ce b2),
          mergeLoop_cons_le hamax, mergeLoop_cons_le ha', mergeLoop_cons_le hbmax]
        have hmx : max (max ce b2) a2 = max (max ce a2) b2 := sup_right_comm ce b2 a2
        rw [hmx]
      · have ha' : ¬ a1 ≤ ce + g := by rw [heq]; exact hb
        have haa : b1 ≤ a2 + g := by
          rw [← heq]
          exact hva.trans (le_add_of_nonneg_right hg)
        have hbb : a1 ≤ b2 + g := by
          rw [heq]
          exact hvb.trans (le_add_of_nonneg_right hg)
        rw [mergeLoop_cons_gt hb, ih (a1, a2) hat hs'.2 hvt hmt b1 b2,
          mergeLoop_cons_le hbb, mergeLoop_cons_gt ha', mergeLoop_cons_le haa,
          heq, max_comm]

/-- The merge fold gives the same output on any two start-sorted, valid
arrangements of the same ranges. -/
theorem mergeLoop_perm (g : ℚ) (hg : 0 ≤ g) (l₁ : List Interval) :
    ∀ l₂, l₁.Perm l₂ → l₁.Sorted leStart → l₂.Sorted leStart →
      (∀ p ∈ l₁, p.1 ≤ p.2) →
      ∀ cs ce, mergeLoop g cs ce l₁ = mergeLoop g cs ce l₂ := by
  induction l₁ with
  | nil =>
    intro l₂ hperm _ _ _ cs ce
    rw [hperm.symm.eq_nil]
  | cons a t ih =>
    intro l₂ hperm hs₁ hs₂ hv cs ce
    have hs₁' := List.sorted_cons.mp hs₁
    have ha2 : a ∈ l₂ := hperm.subset (List.mem_cons_self _ _)
    have hv₂ : ∀ p ∈ l₂, p.1 ≤ p.2 := fun q hq => hv q (hperm.symm.subset hq)
    have hmin : ∀ p ∈ l₂, a.1 ≤ p.1 := by
      intro p hp
      rcases List.mem_cons.mp (hperm.symm.subset hp) with rfl | h
      · exact le_refl _
      · exact hs₁'.1 p h
    rw [mergeLoop_bubble g hg l₂ a ha2 hs₂ hv₂ hmin cs ce]
    have htt : t.Perm (l₂.erase a) :=
      (hperm.trans (List.perm_cons_erase ha2)).cons_inv
    have hse : (l₂.erase a).Sorted leStart :=
      List.Pairwise.sublist (List.erase_sublist a l₂) hs₂
    have hvt : ∀ p ∈ t, p.1 ≤ p.2 := fun q hq => hv q (List.mem_cons_of_mem _ hq)
    obtain ⟨a1, a2⟩ := a
    by_cases h : a1 ≤ ce + g
    · rw [mergeLoop_cons_le h, mergeLoop_cons_le h]
      exact ih (l₂.erase (a1, a2)) htt hs₁'.2 hse hvt cs (max ce a2)
    · rw [mergeLoop_cons_gt h, mergeLoop_cons_gt h,
        ih (l₂.erase (a1, a2)) htt hs₁'.2 hse hvt a1 a2]

/-- Merging two start-sorted, valid arrangements of the same ranges gives
the same output. -/
theorem mergeSorted_perm (g : ℚ) (hg : 0 ≤ g) (l₁ l₂ : List Interval)
    (hperm : l₁.Perm l₂) (hs₁ : l₁.Sorted leStart) (hs₂ : l₂.Sorted leStart)
    (hv : ∀ p ∈ l₁, p.1 ≤ p.2) : mergeSorted g l₁ = mergeSorted g l₂ := by
  cases l₁ with
  | nil => rw [hperm.symm.eq_nil]
  | cons a t =>
    have hs₁' := List.sorted_cons.mp hs₁
    have ha2 : a ∈ l₂ := hperm.subset (List.mem_cons_self _ _)
    have hv₂ : ∀ p ∈ l₂, p.1 ≤ p.2 := fun q hq => hv q (hperm.symm.subset hq)
    have hmin : ∀ p ∈ l₂, a.1 ≤ p.1 := by
      intro p hp
      rcases List.mem_cons.mp (hperm.symm.subset hp) with rfl | h
      · exact le_refl _
      · exact hs₁'.1 p h
    have htt : t.Perm (l₂.erase a) :=
      (hperm.trans (List.perm_cons_erase ha2)).cons_inv
    have hse : (l₂.erase a).Sorted leStart :=
      List.Pairwise.sublist (List.erase_sublist a l₂) hs₂
    have hvt : ∀ p ∈ t, p.1 ≤ p.2 := fun q hq => hv q (List.mem_cons_of_mem _ hq)
    -- bubble a to the front of l₂, then compare the two folds
    have hbub : mergeSorted g l₂ = mergeSorted g (a :: l₂.erase a) := by
      cases hl₂ : l₂ with
      | nil => exact absurd (hl₂ ▸ ha2) (List.not_mem_nil a)
      | cons b t₂ =>
        subst hl₂
        by_cases hab : a = b
        · subst hab
          rw [List.erase_cons_head]
        · have hbt : a ∈ t₂ := by
            rcases List.mem_cons.mp ha2 with h | h
            · exact absurd h hab
            · exact h
          have hs₂' := List.sorted_cons.mp hs₂
          have heq : a.1 = b.1 :=
            le_antisymm (hmin b (List.mem_cons_self _ _)) (hs₂'.1 a hbt)
          have herase : (b :: t₂).erase a = b :: t₂.erase a :=
            List.erase_cons_tail (by simp [Ne.symm hab])
          obtain ⟨a1, a2⟩ := a
          obtain ⟨b1, b2⟩ := b
          simp only at heq
          have hva : a1 ≤ a2 := hv₂ (a1, a2) ha2
          have hvb : b1 ≤ b2 := hv₂ (b1, b2) (List.mem_cons_self _ _)
          have hvt₂ : ∀ p ∈ t₂, p.1 ≤ p.2 :=
            fun q hq => hv₂ q (List.mem_cons_of_mem _ hq)
          have hmt₂ : ∀ p ∈ t₂, a1 ≤ p.1 :=
            fun q hq => hmin q (List.mem_cons_of_mem _ hq)
          have haa : b1 ≤ a2 + g := by
            rw [← heq]
            exact hva.trans (le_add_of_nonneg_right hg)
          have hbb : a1 ≤ b2 + g := by
            rw [heq]
            exact hvb.trans (le_add_of_nonneg_right hg)
          rw [herase]
          show mergeLoop g b1 b2 t₂ = mergeLoop g a1 a2 ((b1, b2) :: t₂.erase (a1, a2))
          rw [mergeLoop_bubble g hg t₂ (a1, a2) hbt hs₂'.2 hvt₂ hmt₂ b1 b2,
            mergeLoop_cons_le hbb, mergeLoop_cons_le haa, heq, max_comm]
    rw [hbub]
    show mergeSorted g (a :: t) = mergeSorted g (a :: l₂.erase a)
    obtain ⟨a1, a2⟩ := a
    show mergeLoop g a1 a2 t = mergeLoop g a1 a2 (l₂.erase (a1, a2))
    exact mergeLoop_perm g hg t (l₂.erase (a1, a2)) htt hs₁'.2 hse hvt a1 a2

/-- `_merge_intervals` of the video processor is character-for-character the
same algorithm as `_merge_adjacent` of the ASR detector. -/
theorem merge_intervals_eq_merge_adjacent (l : List Interval) (g : ℚ) :
    merge_intervals l g = merge_adjacent l g := rfl

/-- Structural invariants of `merge_adjacent`: valid outputs and pairwise
strict gap separation, on start-sorted valid input. -/
theorem merge_adjacent_inv (x : List Interval) (g : ℚ) (hg : 0 ≤ g)
    (hv : ∀ p ∈ x, p.1 ≤ p.2) :
    (∀ p ∈ merge_adjacent x g, p.1 ≤ p.2) ∧
      (merge_adjacent x g).Pairwise (fun a b => a.2 + g < b.1) := by
  have hvs : ∀ p ∈ sortStart x, p.1 ≤ p.2 :=
    fun q hq => hv q ((sortStart_perm x).subset hq)
  have hss := sortStart_sorted x
  unfold merge_adjacent
  cases hx : sortStart x with
  | nil => simp [mergeSorted]
  | cons a rest =>
    obtain ⟨a1, a2⟩ := a
    rw [hx] at hvs hss
    have hs' := List.sorted_cons.mp hss
    have hva : a1 ≤ a2 := hvs (a1, a2) (List.mem_cons_self _ _)
    have hvrest : ∀ p ∈ rest, p.1 ≤ p.2 :=
      fun q hq => hvs q (List.mem_cons_of_mem _ hq)
    constructor
    · exact mergeLoop_valid g rest a1 a2 hvrest hva
    · exact (mergeLoop_inv g hg rest a1 a2 hs'.2 hvrest hva
        (fun q hq => hs'.1 q hq)).2

/-! ## Subtract lemmas -/

/-- No point is covered by an empty interval list. -/
theorem covers_nil (x : ℚ) : ¬ covers [] x := by
  simp [covers]

/-- Coverage by the empty list, in rewriting form. -/
theorem covers_nil_iff (x : ℚ) : covers [] x ↔ False := by
  simp [covers]

/-- Coverage by a cons: the head interval or the tail. -/
theorem covers_cons {p : Interval} {l : List Interval} {x : ℚ} :
    covers (p :: l) x ↔ (p.1 ≤ x ∧ x < p.2) ∨ covers l x := by
  simp [covers, List.mem_cons, or_and_right, exists_or, exists_eq_left]

/-- Coverage by an append: one of the two lists. -/
theorem covers_append {l₁ l₂ : List Interval} {x : ℚ} :
    covers (l₁ ++ l₂) x ↔ covers l₁ x ∨ covers l₂ x := by
  simp [covers, List.mem_append, or_and_right, exists_or]

/-- Coverage only depends on the multiset of intervals. -/
theorem covers_perm {l₁ l₂ : List Interval} (h : l₁.Perm l₂) (x : ℚ) :
    covers l₁ x ↔ covers l₂ x := by
  constructor <;> rintro ⟨p, hp, hx⟩
  · exact ⟨p, h.subset hp, hx⟩
  · exact ⟨p, h.symm.subset hp, hx⟩

/-- Unfolding `subLoop` past the end of the cut list. -/
theorem subLoop_nil (ce cur : ℚ) :
    subLoop ce cur [] = if cur < ce then [(cur, ce)] else [] := rfl

/-- Unfolding `subLoop` when the head cut reaches into the base span and the
cursor advance covers the rest of the span (the `break`). -/
theorem subLoop_cons_stop {ce cur c1 c2 : ℚ} {rest : List Interval}
    (h1 : c1 < ce) (h2 : ce ≤ max cur c2) :
    subLoop ce cur ((c1, c2) :: rest) =
      if cur < c1 then [(cur, min c1 ce)] else [] := by
  simp [subLoop, h1, h2]

/-- Unfolding `subLoop` when the head cut reaches into the base span and the
scan continues past it. -/
theorem subLoop_cons_go {ce cur c1 c2 : ℚ} {rest : List Interval}
    (h1 : c1 < ce) (h2 : ¬ ce ≤ max cur c2) :
    subLoop ce cur ((c1, c2) :: rest) =
      (if cur < c1 then [(cur, min c1 ce)] else []) ++ subLoop ce (max cur c2) rest := by
  simp [subLoop, h1, h2]

/-- Unfolding `subLoop` when the head cut starts at or past the base end (the
loop guard fails). -/
theorem subLoop_cons_after {ce cur c1 c2 : ℚ} {rest : List Interval}
    (h1 : ¬ c1 < ce) :
    subLoop ce cur ((c1, c2) :: rest) = if cur < ce then [(cur, ce)] else [] := by
  simp [subLoop, h1]

/-- Point-set semantics of the inner subtract loop over a start-sorted cut
list: its output covers exactly the points of `[cur, ce)` not covered by
the cuts. -/
theorem subLoop_covers (ce : ℚ) (C : List Interval) :
    ∀ cur x, C.Sorted leStart →
      (covers (subLoop ce cur C) x ↔ cur ≤ x ∧ x < ce ∧ ¬ covers C x) := by
  induction C with
  | nil =>
    intro cur x _
    rcases lt_or_ge cur ce with h | h
    · rw [subLoop_nil, if_pos h]
      simp only [covers_cons, covers_nil_iff, or_false, not_false_eq_true, and_true]
    · rw [subLoop_nil, if_neg (not_lt.mpr h)]
      constructor
      · intro hx
        exact absurd hx (covers_nil x)
      · rintro ⟨hx1, hx2, _⟩
        exact absurd hx2 (not_lt.mpr (h.trans hx1))
  | cons c rest ih =>
    intro cur x hs
    obtain ⟨c1, c2⟩ := c
    have hs' := List.sorted_cons.mp hs
    have hnotrest : ∀ y : ℚ, y < c1 → ¬ covers rest y := by
      rintro y hy ⟨q, hq, hq1, _⟩
      exact absurd (le_trans (hs'.1 q hq) hq1) (not_le.mpr hy)
    by_cases h1 : c1 < ce
    · by_cases h2 : ce ≤ max cur c2
      · rw [subLoop_cons_stop h1 h2]
        by_cases hc : cur < c1
        · rw [if_pos hc]
          simp only [covers_cons, covers_nil_iff, or_false, lt_min_iff, not_or,
            not_and, not_lt]
          constructor
          · rintro ⟨hx1, hxc1, hxce⟩
            exact ⟨hx1, hxce, fun hle => absurd hle (not_le.mpr hxc1),
              hnotrest x hxc1⟩
          · rintro ⟨hx1, hxce, himp, _⟩
            refine ⟨hx1, ?_, hxce⟩
            by_contra hle
            have hc2x : c2 ≤ x := himp (not_lt.mp hle)
            exact absurd hxce (not_lt.mpr (h2.trans (max_le hx1 hc2x)))
        · rw [if_neg hc]
          constructor
          · intro hx
            exact absurd hx (covers_nil x)
          · rintro ⟨hx1, hxce, hncov⟩
            rw [covers_cons] at hncov
            push_neg at hncov
            have hc1x : c1 ≤ x := le_trans (not_lt.mp hc) hx1
            exact absurd hxce (not_lt.mpr (h2.trans (max_le hx1 (hncov.1 hc1x))))
      · rw [subLoop_cons_go h1 h2, covers_append, ih (max cur c2) x hs'.2]
        by_cases hc : cur < c1
        · rw [if_pos hc]
          simp only [covers_cons, covers_nil_iff, or_false, lt_min_iff, not_or,
            not_and, not_lt, max_le_iff]
          constructor
          · rintro (⟨hx1, hxc1, hxce⟩ | ⟨⟨hxcur, hxc2⟩, hxce, hnr⟩)
            · exact ⟨hx1, hxce, fun hle => absurd hle (not_le.mpr hxc1),
                hnotrest x hxc1⟩
            · exact ⟨hxcur, hxce, fun _ => hxc2, hnr⟩
          · rintro ⟨hx1, hxce, himp, hnr⟩
            by_cases hxc1 : x < c1
            · exact Or.inl ⟨hx1, hxc1, hxce⟩
            · exact Or.inr ⟨⟨hx1, himp (not_lt.mp hxc1)⟩, hxce, hnr⟩
        · rw [if_neg hc]
          simp only [covers_cons, covers_nil_iff, false_or, not_or, not_and,
            not_lt, max_le_iff]
          constructor
          · rintro ⟨⟨hxcur, hxc2⟩, hxce, hnr⟩
            exact ⟨hxcur, hxce, fun _ => hxc2, hnr⟩
          · rintro ⟨hx1, hxce, himp, hnr⟩
            exact ⟨⟨hx1, himp (le_trans (not_lt.mp hc) hx1)⟩, hxce, hnr⟩
    · rw [subLoop_cons_after h1]
      have hce : ce ≤ c1 := not_lt.mp h1
      rcases lt_or_ge cur ce with h | h
      · rw [if_pos h]
        simp only [covers_cons, covers_nil_iff, or_false, not_or, not_and, not_lt]
        constructor
        · rintro ⟨hx1, hxce⟩
          have hxc1 : x < c1 := lt_of_lt_of_le hxce hce
          exact ⟨hx1, hxce, fun hle => absurd hle (not_le.mpr hxc1),
            hnotrest x hxc1⟩
        · rintro ⟨hx1, hxce, _, _⟩
          exact ⟨hx1, hxce⟩
      · rw [if_neg (not_lt.mpr h)]
        constructor
        · intro hx
          exact absurd hx (covers_nil x)
        · rintro ⟨hx1, hxce, _⟩
          exact absurd hxce (not_lt.mpr (h.trans hx1))

/-- Cuts skipped by the `while cuts[i][1] <= cs : i += 1` advance end at or
before the base start, so they cannot cover any point of the base span. -/
theorem dropWhile_covers (s : ℚ) (C : List Interval) :
    ∀ x, s ≤ x →
      (covers (C.dropWhile fun c => decide (c.2 ≤ s)) x ↔ covers C x) := by
  induction C with
  | nil => intro x _; exact Iff.rfl
  | cons c rest ih =>
    intro x hx
    by_cases h : c.2 ≤ s
    · rw [List.dropWhile_cons, if_pos (by simpa using h), ih x hx, covers_cons]
      constructor
      · exact Or.inr
      · rintro (⟨_, hq2⟩ | hq)
        · exact absurd hq2 (not_lt.mpr (h.trans hx))
        · exact hq
    · rw [List.dropWhile_cons, if_neg (by simpa using h)]

/-- Unfolding the outer base loop of `_subtract_intervals`. -/
theorem subBase_cons (s e : ℚ) (rest C : List Interval) :
    subBase ((s, e) :: rest) C =
      subLoop e s (C.dropWhile fun c => decide (c.2 ≤ s)) ++
        subBase rest (C.dropWhile fun c => decide (c.2 ≤ s)) := rfl

/-- Point-set semantics of the outer subtract loop on start-sorted inputs. -/
theorem subBase_covers (B : List Interval) :
    ∀ C, B.Sorted leStart → C.Sorted leStart →
      ∀ x, (covers (subBase B C) x ↔ covers B x ∧ ¬ covers C x) := by
  induction B with
  | nil =>
    intro C _ _ x
    simp [subBase, covers_nil_iff]
  | cons b rest ih =>
    intro C hsB hsC x
    obtain ⟨s, e⟩ := b
    have hsB' := List.sorted_cons.mp hsB
    have hsC' : (C.dropWhile fun c => decide (c.2 ≤ s)).Sorted leStart :=
      List.Pairwise.sublist (List.dropWhile_sublist _) hsC
    rw [subBase_cons, covers_append,
      subLoop_covers e (C.dropWhile fun c => decide (c.2 ≤ s)) s x hsC',
      ih (C.dropWhile fun c => decide (c.2 ≤ s)) hsB'.2 hsC' x, covers_cons]
    constructor
    · rintro (⟨hx1, hx2, hnc⟩ | ⟨hcr, hnc⟩)
      · exact ⟨Or.inl ⟨hx1, hx2⟩, fun h => hnc ((dropWhile_covers s C x hx1).mpr h)⟩
      · obtain ⟨q, hq, hq1, _⟩ := hcr
        have hsx : s ≤ x := le_trans (hsB'.1 q hq) hq1
        exact ⟨Or.inr ⟨q, hq, hq1, by assumption⟩,
          fun h => hnc ((dropWhile_covers s C x hsx).mpr h)⟩
    · rintro ⟨hcb | hcr, hncC⟩
      · exact Or.inl ⟨hcb.1, hcb.2,
          fun h => hncC ((dropWhile_covers s C x hcb.1).mp h)⟩
      · obtain ⟨q, hq, hq1, _⟩ := hcr
        have hsx : s ≤ x := le_trans (hsB'.1 q hq) hq1
        exact Or.inr ⟨⟨q, hq, hq1, by assumption⟩,
          fun h => hncC ((dropWhile_covers s C x hsx).mp h)⟩

/-- Every interval the inner subtract loop emits is strictly non-empty. -/
theorem subLoop_strict (ce : ℚ) (C : List Interval) :
    ∀ cur p, p ∈ subLoop ce cur C → p.1 < p.2 := by
  induction C with
  | nil =>
    intro cur p hp
    rw [subLoop_nil] at hp
    by_cases h : cur < ce
    · rw [if_pos h, List.mem_singleton] at hp
      subst hp
      exact h
    · rw [if_neg h] at hp
      exact absurd hp (List.not_mem_nil p)
  | cons c rest ih =>
    intro cur p hp
    obtain ⟨c1, c2⟩ := c
    by_cases h1 : c1 < ce
    · by_cases h2 : ce ≤ max cur c2
      · rw [subLoop_cons_stop h1 h2] at hp
        by_cases hc : cur < c1
        · rw [if_pos hc, List.mem_singleton] at hp
          subst hp
          exact lt_min hc (hc.trans h1)
        · rw [if_neg hc] at hp
          exact absurd hp (List.not_mem_nil p)
      · rw [subLoop_cons_go h1 h2, List.mem_append] at hp
        rcases hp with hp | hp
        · by_cases hc : cur < c1
          · rw [if_pos hc, List.mem_singleton] at hp
            subst hp
            exact lt_min hc (hc.trans h1)
          · rw [if_neg hc] at hp
            exact absurd hp (List.not_mem_nil p)
        · exact ih (max cur c2) p hp
    · rw [subLoop_cons_after h1] at hp
      by_cases h : cur < ce
      · rw [if_pos h, List.mem_singleton] at hp
        subst hp
        exact h
      · rw [if_neg h] at hp
        exact absurd hp (List.not_mem_nil p)

/-- Every interval the outer subtract loop emits is strictly non-empty. -/
theorem subBase_strict (B : List Interval) :
    ∀ C p, p ∈ subBase B C → p.1 < p.2 := by
  induction B with
  | nil =>
    intro C p hp
    exact absurd hp (List.not_mem_nil p)
  | cons b rest ih =>
    intro C p hp
    obtain ⟨s, e⟩ := b
    rw [subBase_cons, List.mem_append] at hp
    rcases hp with hp | hp
    · exact subLoop_strict e _ s p hp
    · exact ih _ p hp

/-- Helper: `_subtract_intervals` with an empty cut list returns the base list
unchanged (the `if not cuts: return base` shortcut). -/
theorem subtract_intervals_nil_cuts (X : List Interval) : subtract_intervals X [] = X := by
  by_cases h : X = [] <;> simp [subtract_intervals, h]

/-- C6: the merge primitive is idempotent and order-independent, its output
is start-sorted and non-overlapping, and empty input yields empty
output.  Stated for interval lists (start at or before end per the data
model) and non-negative gap tolerance; `_merge_intervals` of the video
processor is the identical algorithm. -/
theorem C6_merge_algebra (x : List Interval) (g : ℚ) (hg : 0 ≤ g)
    (hv : ∀ p ∈ x, p.1 ≤ p.2) :
    merge_adjacent (merge_adjacent x g) g = merge_adjacent x g ∧
      (∀ p, p.Perm x → merge_adjacent p g = merge_adjacent x g) ∧
      (merge_adjacent x g).Sorted leStart ∧
      (merge_adjacent x g).Chain' (fun a b => a.2 ≤ b.1) ∧
      merge_adjacent ([] : List Interval) g = [] ∧
      merge_intervals x g = merge_adjacent x g := by
  obtain ⟨hvo, hpw⟩ := merge_adjacent_inv x g hg hv
  have hsorted : (merge_adjacent x g).Sorted leStart := by
    refine hpw.imp_of_mem ?_
    intro a b ha _ hr
    exact le_of_lt (lt_of_le_of_lt (le_trans (hvo a ha) (le_add_of_nonneg_right hg)) hr)
  have hchain : (merge_adjacent x g).Chain' (fun a b => a.2 ≤ b.1) := by
    refine hpw.chain'.imp ?_
    intro a b hr
    exact le_of_lt (lt_of_le_of_lt (le_add_of_nonneg_right hg) hr)
  refine ⟨?_, ?_, hsorted, hchain, rfl, rfl⟩
  · have hss : sortStart (merge_adjacent x g) = merge_adjacent x g :=
      List.Sorted.insertionSort_eq hsorted
    show mergeSorted g (sortStart (merge_adjacent x g)) = merge_adjacent x g
    rw [hss]
    cases ho : merge_adjacent x g with
    | nil => rfl
    | cons a t =>
      obtain ⟨s, e⟩ := a
      have hch : (((s, e) : Interval) :: t).Chain' (fun a b => a.2 + g < b.1) :=
        ho ▸ hpw.chain'
      exact mergeLoop_of_chain g t s e hch
  · intro p hp
    have h1 : (sortStart p).Perm (sortStart x) :=
      ((sortStart_perm p).trans hp).trans (sortStart_perm x).symm
    have hvp : ∀ q ∈ sortStart p, q.1 ≤ q.2 := by
      intro q hq
      exact hv q (hp.subset ((sortStart_perm p).subset hq))
    exact mergeSorted_perm g hg (sortStart p) (sortStart x) h1
      (sortStart_sorted p) (sortStart_sorted x) hvp

/-- C6 witness: the merge algebra instantiated at `x = [(0,2),(1,3),(6,7)]`,
`g = 1`, with the shuffled copy `[(6,7),(0,2),(1,3)]`. -/
theorem C6_witness :
    ((0 : ℚ) ≤ 1) ∧
      (∀ p ∈ ([(0, 2), (1, 3), (6, 7)] : List Interval), p.1 ≤ p.2) ∧
      merge_adjacent (merge_adjacent ([(0, 2), (1, 3), (6, 7)] : List Interval) 1) 1 =
        merge_adjacent ([(0, 2), (1, 3), (6, 7)] : List Interval) 1 ∧
      merge_adjacent ([(6, 7), (0, 2), (1, 3)] : List Interval) 1 =
        merge_adjacent ([(0, 2), (1, 3), (6, 7)] : List Interval) 1 := by
  have h := C6_merge_algebra ([(0, 2), (1, 3), (6, 7)] : List Interval) 1
    (by norm_num) (by decide)
  exact ⟨by norm_num, by decide, h.1, h.2.1 _ (by decide)⟩

/-- C10: consecutive merged output intervals are separated by strictly more
than the gap tolerance (for every input list), and output intervals are
valid whenever input intervals are; `_merge_intervals` is the identical
algorithm. -/
theorem C10_merge_separation (l : List Interval) (g : ℚ) (hg : 0 ≤ g) :
    (merge_adjacent l g).Chain' (fun a b => a.2 + g < b.1) ∧
      ((∀ p ∈ l, p.1 ≤ p.2) → ∀ p ∈ merge_adjacent l g, p.1 ≤ p.2) ∧
      merge_intervals l g = merge_adjacent l g := by
  refine ⟨?_, ?_, rfl⟩
  · unfold merge_adjacent
    cases sortStart l with
    | nil => simp [mergeSorted]
    | cons a t =>
      obtain ⟨a1, a2⟩ := a
      exact mergeLoop_chain g t a1 a2
  · intro hv p hp
    exact (merge_adjacent_inv l g hg hv).1 p hp

/-- C10 witness: separation and validity at `l = [(0,1),(3,4)]`, `g = 1`. -/
theorem C10_witness :
    ((0 : ℚ) ≤ 1) ∧
      (merge_adjacent ([(0, 1), (3, 4)] : List Interval) 1).Chain'
        (fun a b => a.2 + 1 < b.1) ∧
      (∀ p ∈ ([(0, 1), (3, 4)] : List Interval), p.1 ≤ p.2) ∧
      (∀ p ∈ merge_adjacent ([(0, 1), (3, 4)] : List Interval) 1, p.1 ≤ p.2) := by
  have h := C10_merge_separation ([(0, 1), (3, 4)] : List Interval) 1 (by norm_num)
  exact ⟨by norm_num, h.1, by decide, h.2.1 (by decide)⟩

/-- C7: for every pair of interval lists, `Subtract(X, ∅) = X` (the
`if not cuts: return base` shortcut) and `Subtract(∅, Y) = ∅` (the
`if not base: return []` shortcut). -/
theorem C7_subtract_identities (X Y : List Interval) :
    subtract_intervals X [] = X ∧ subtract_intervals [] Y = [] := by
  exact ⟨subtract_intervals_nil_cuts X, by simp [subtract_intervals]⟩

/-- C3 counterexample: with an empty cut list, `_subtract_intervals` returns
the base list verbatim, so a zero-length base interval does contribute an
output interval, contrary to the claim. -/
theorem C3_counterexample :
    (∀ p ∈ ([((1 : ℚ), 1)] : List Interval), p.1 ≤ p.2) ∧
      subtract_intervals [((1 : ℚ), 1)] [] = [((1 : ℚ), 1)] ∧
      subtract_intervals [((1 : ℚ), 1)] [] ≠ [] := by
  refine ⟨by decide, by simp [subtract_intervals], by simp [subtract_intervals]⟩

/-- C3 amended: for every pair of interval lists with start at or before end
per interval, `Subtract(base, cuts)` covers exactly the time points of
`base` not covered by any interval of `cuts`; and whenever `cuts` is
non-empty every output interval is strictly non-empty, so zero-length or
fully covered base intervals contribute no output interval (with an empty
`cuts` the base list is returned verbatim, zero-length intervals
included). -/
theorem C3_subtract_pointset (base cuts : List Interval)
    (hb : ∀ p ∈ base, p.1 ≤ p.2) (hc : ∀ p ∈ cuts, p.1 ≤ p.2) :
    (∀ x, covers (subtract_intervals base cuts) x ↔
        covers base x ∧ ¬ covers cuts x) ∧
      (cuts ≠ [] → ∀ p ∈ subtract_intervals base cuts, p.1 < p.2) := by
  constructor
  · intro x
    by_cases hB : base = []
    · subst hB
      simp [subtract_intervals, covers_nil_iff]
    · by_cases hC : cuts = []
      · subst hC
        simp [subtract_intervals, hB, covers_nil_iff]
      · simp only [subtract_intervals, if_neg hB, if_neg hC]
        rw [subBase_covers (sortStart base) (sortStart cuts)
            (sortStart_sorted base) (sortStart_sorted cuts) x,
          covers_perm (sortStart_perm base) x, covers_perm (sortStart_perm cuts) x]
  · intro hC p hp
    by_cases hB : base = []
    · subst hB
      simp [subtract_intervals] at hp
    · simp only [subtract_intervals, if_neg hB, if_neg hC] at hp
      exact subBase_strict (sortStart base) (sortStart cuts) p hp

/-- C3 witness: the point-set semantics and output strictness instantiated at
`base = [(0,4)]`, `cuts = [(1,2)]`, evaluated at the point `x = 3`. -/
theorem C3_witness :
    (∀ p ∈ ([((0 : ℚ), 4)] : List Interval), p.1 ≤ p.2) ∧
      (∀ p ∈ ([((1 : ℚ), 2)] : List Interval), p.1 ≤ p.2) ∧
      (covers (subtract_intervals [((0 : ℚ), 4)] [((1 : ℚ), 2)]) 3 ↔
        covers ([((0 : ℚ), 4)] : List Interval) 3 ∧
          ¬ covers ([((1 : ℚ), 2)] : List Interval) 3) ∧
      (∀ p ∈ subtract_intervals [((0 : ℚ), 4)] [((1 : ℚ), 2)], p.1 < p.2) := by
  have h := C3_subtract_pointset [((0 : ℚ), 4)] [((1 : ℚ), 2)] (by decide) (by decide)
  exact ⟨by decide, by decide, h.1 3, h.2 (by decide)⟩

/-- C5: on a non-empty frame-dB sequence the effective threshold is
`min(max(static, percentile20 + 6), -20)`; on an empty sequence it is the
static threshold unchanged (no clamping). -/
theorem C5_adaptive_threshold_formula (t : ℚ) (dbs : List ℚ) :
    (dbs ≠ [] → adaptive_threshold t dbs = min (max t (percentile20 dbs + 6)) (-20)) ∧
    adaptive_threshold t [] = t := by
  constructor
  · intro h
    simp [adaptive_threshold, h]
  · simp [adaptive_threshold]

/-- C5 witness: the formula at the concrete sequence `[-50]` and the empty
sequence, with static threshold `-40`. -/
theorem C5_witness :
    (([(-50 : ℚ)] ≠ ([] : List ℚ)) ∧
      adaptive_threshold (-40) [(-50 : ℚ)] =
        min (max (-40) (percentile20 [(-50 : ℚ)] + 6)) (-20)) ∧
    adaptive_threshold (-40) ([] : List ℚ) = -40 :=
  ⟨⟨by decide, (C5_adaptive_threshold_formula (-40) [(-50 : ℚ)]).1 (by decide)⟩,
    (C5_adaptive_threshold_formula (-40) []).2⟩

/-- C8: the adaptive threshold is monotone in the configured static
threshold, for any fixed frame-dB sequence. -/
theorem C8_adaptive_threshold_monotone (dbs : List ℚ) (t₁ t₂ : ℚ) (h : t₁ ≤ t₂) :
    adaptive_threshold t₁ dbs ≤ adaptive_threshold t₂ dbs := by
  rcases eq_or_ne dbs [] with h0 | h0
  · simp only [adaptive_threshold, if_pos h0]
    exact h
  · simp only [adaptive_threshold, if_neg h0]
    exact min_le_min (max_le_max h le_rfl) le_rfl

/-- C8 witness: monotonicity instantiated at `t₁ = -45 ≤ t₂ = -40` over the
sequence `[-50]`. -/
theorem C8_witness :
    ((-45 : ℚ) ≤ -40) ∧
      adaptive_threshold (-45) [(-50 : ℚ)] ≤ adaptive_threshold (-40) [(-50 : ℚ)] :=
  ⟨by norm_num, C8_adaptive_threshold_monotone [(-50 : ℚ)] (-45) (-40) (by norm_num)⟩

/-- C9 counterexample: on a zero-length buffer (empty frame sequences, zero
duration) `find_speech_segments` does not fail: it returns the ordinary
interval list `[(0.0, 0.0)]` through the fallback path, so the claimed
fail-fast input error does not exist in the code. -/
theorem C9_counterexample :
    find_speech_segments (-40) (1/2) [] [] 0 = [((0 : ℚ), (0 : ℚ))] ∧
      [((0 : ℚ), (0 : ℚ))] ≠ ([] : List Interval) := by
  constructor
  · norm_num [find_speech_segments, speech_go, fallback_speech_segments,
      detect_silence_segments, detect_go, adaptive_threshold]
  · decide

/-- C9 amended: an empty audio buffer is not validated and raises no input
error; for every configured threshold and minimum silence duration the
analysis returns the single degenerate interval `[(0.0, 0.0)]` (the
fallback's `[(0.0, total_duration)]` with `total_duration = 0`). -/
theorem C9_amended (t m : ℚ) :
    find_speech_segments t m [] [] 0 = [((0 : ℚ), (0 : ℚ))] := by
  simp [find_speech_segments, speech_go, fallback_speech_segments,
    detect_silence_segments, detect_go, adaptive_threshold]

/-- C2 counterexample: with an empty oracle speech set (and no fillers) the
pipeline raises the hard "no speech" error even though the energy-based
classifier's speech detection on the frame sequence `[-10]` with band ratio
`[0.5]` yields the non-empty list `[(0, 0.1)]`; the claimed fallback to the
classifier does not happen. -/
theorem C2_counterexample :
    pipeline_speech_decision [] [] =
        Except.error "No speech detected by ASR; nothing to cut" ∧
      find_speech_segments (-40) (3/20) [-10] [1/2] (1/10) = [((0 : ℚ), 1/10)] ∧
      [((0 : ℚ), 1/10)] ≠ ([] : List Interval) := by
  refine ⟨by simp [pipeline_speech_decision], ?_, by decide⟩
  norm_num [find_speech_segments, speech_go, adaptive_threshold, percentile20,
    sortQ, List.insertionSort, List.orderedInsert, min_def, max_def]

/-- C2 amended: the pipeline's authoritative output is
`Subtract(oracle_speech, oracle_fillers)` whenever that set is non-empty,
and otherwise — including whenever the oracle speech set is empty — it
fails with the hard "No speech detected by ASR" error; the energy-based
classifier is never consulted as a fallback. -/
theorem C2_amended (sp fl : List Interval) :
    pipeline_speech_decision sp fl =
      if subtract_intervals sp fl = [] then
        Except.error "No speech detected by ASR; nothing to cut"
      else Except.ok (subtract_intervals sp fl) := by
  by_cases h : fl = [] <;>
    simp [pipeline_speech_decision, h, subtract_intervals_nil_cuts]

/-- C1 counterexample: on the scenario's frame energies the classifier closes
a silence run at the end of the first non-silent frame, so the first
silence segment is `(0.0, 0.3)`, not the claimed `(0.0, 0.2)`. -/
theorem C1_counterexample :
    detect_silence_segments (-40) (3/20) [-50, -50, -10, -10, -50, -50]
        [0, 0, 1/2, 1/2, 0, 0] = [((0 : ℚ), 3/10), (2/5, 3/5)] ∧
      ([((0 : ℚ), 3/10), (2/5, 3/5)] : List Interval) ≠
        ([((0 : ℚ), 1/5), (2/5, 3/5)] : List Interval) := by
  constructor
  · norm_num [detect_silence_segments, detect_go, adaptive_threshold, percentile20,
      sortQ, List.insertionSort, List.orderedInsert, min_def, max_def]
  · norm_num

/-- C1 amended: for the frame energy sequence `[-50,-50,-10,-10,-50,-50]` dB
at 0.1 s frames (band ratios making the `-10` dB frames non-silent),
static threshold `-40` dB and minimum silence duration 0.15 s: the
effective threshold is `-40`, `detect_silence_segments` returns
`[(0.0, 0.3), (0.4, 0.6)]` (a silence run is closed at the end of the first
non-silent frame), and the fallback speech computation over the 0.6 s
buffer returns `[(0.3, 0.4)]`. -/
theorem C1_amended :
    adaptive_threshold (-40) [-50, -50, -10, -10, -50, -50] = -40 ∧
      detect_silence_segments (-40) (3/20) [-50, -50, -10, -10, -50, -50]
        [0, 0, 1/2, 1/2, 0, 0] = [((0 : ℚ), 3/10), (2/5, 3/5)] ∧
      fallback_speech_segments (-40) (3/20) [-50, -50, -10, -10, -50, -50]
        [0, 0, 1/2, 1/2, 0, 0] (3/5) = [((3 : ℚ)/10, 2/5)] := by
  refine ⟨?_, ?_, ?_⟩
  · norm_num [adaptive_threshold, percentile20, sortQ, List.insertionSort,
      List.orderedInsert, min_def, max_def]
  · norm_num [detect_silence_segments, detect_go, adaptive_threshold, percentile20,
      sortQ, List.insertionSort, List.orderedInsert, min_def, max_def]
  · norm_num [fallback_speech_segments, fallback_go, detect_silence_segments, detect_go,
      adaptive_threshold, percentile20, sortQ, List.insertionSort, List.orderedInsert,
      min_def, max_def]
    all_goals decide

/-- C4: the detector's filler ranges are exactly the word events whose
lowercased text lies in the fixed lexicon and whose end is strictly after
their start, merged with gap tolerance 0.25 s. -/
theorem C4_filler_ranges (words : List WordEvent) :
    detect_fillers words =
      merge_adjacent
        (((words.filter fun w =>
            decide (str_lower w.text ∈ filler_set ∧ w.stop > w.start)).map
          fun w => (w.start, w.stop))) (1/4) := by
  have key : ∀ ws : List WordEvent,
      collect_fillers ws =
        ((ws.filter fun w =>
            decide (str_lower w.text ∈ filler_set ∧ w.stop > w.start)).map
          fun w => (w.start, w.stop)) := by
    intro ws
    induction ws with
    | nil => rfl
    | cons w t ih =>
      by_cases h : str_lower w.text ∈ filler_set ∧ w.stop > w.start <;>
        simp [collect_fillers, h, ih, List.filter_cons]
  simp [detect_fillers, key]

end QuickCut
